import Mathlib

/-!
Shallow embedding of the `markitwrite` package: a dispatcher that routes an
image-insertion request to one of several format-specific writers based on a
target file extension.  Python strings are modelled as lists of Unicode code
points (`PyStr`), Python `None` as `Option.none`, Python `float` priorities as
rationals, and fallible operations as `Except`.  The free-form `metadata`
mapping of `WriteResult` and the binary side effects delegated to the
third-party docx/pptx libraries are not part of any verified claim; the
in-repository decision logic around them is embedded faithfully.
-/

set_option maxRecDepth 4000

namespace Markitwrite

/-- Python strings modelled as lists of Unicode code points. -/
abbrev PyStr := List Nat

/-- Code points of a Lean string literal, used to write down the concrete
Python string constants appearing in the source. -/
def strCodes (s : String) : PyStr := s.data.map Char.toNat

/-- The code point of the character `.` used by format normalization. -/
def dotCode : Nat := 46

/-- The code point of the character `/`. -/
def slashCode : Nat := 47

/-- The code point of the newline character. -/
def nlCode : Nat := 10

/-- Python `str.lower` on a single code point (the source only ever lowers
ASCII extension strings; ASCII lowering agrees with Python there). -/
def pyCharLower (c : Nat) : Nat := if 65 ≤ c ∧ c ≤ 90 then c + 32 else c

/-- Python `str.lower`. -/
def pyLower (s : PyStr) : PyStr := s.map pyCharLower

/-- Python `s.startswith(".")`. -/
def startsWithDot (s : PyStr) : Bool :=
  match s with
  | [] => false
  | c :: _ => c == dotCode

/-- The format normalization performed by `DocumentWriter.accepts`
(`_base_writer.py` lines 49-51): lowercase, then prepend a dot when the
string does not already start with one. -/
def normalizeFormat (s : PyStr) : PyStr :=
  let n := pyLower s
  if startsWithDot n then n else dotCode :: n

/-- `DocumentWriter` (`_base_writer.py`): each writer declares the list of
extensions it accepts.  The per-format `insert_image` bodies are embedded as
standalone functions below. -/
structure DocumentWriter where
  ACCEPTED_EXTENSIONS : List PyStr
deriving DecidableEq

/-- `DocumentWriter.accepts` (`_base_writer.py` lines 40-52): membership of
the normalized format in the declared extension list. -/
def DocumentWriter.accepts (w : DocumentWriter) (target_format : PyStr) : Bool :=
  decide (normalizeFormat target_format ∈ w.ACCEPTED_EXTENSIONS)

/-- `DocxWriter.ACCEPTED_EXTENSIONS` (`_docx_writer.py` line 34). -/
def DocxWriter : DocumentWriter := ⟨[strCodes ".docx"]⟩

/-- `PptxWriter.ACCEPTED_EXTENSIONS` (`_pptx_writer.py` line 34). -/
def PptxWriter : DocumentWriter := ⟨[strCodes ".pptx"]⟩

/-- `MarkdownWriter.ACCEPTED_EXTENSIONS` (`_markdown_writer.py` line 32). -/
def MarkdownWriter : DocumentWriter :=
  ⟨[strCodes ".md", strCodes ".markdown", strCodes ".mdown", strCodes ".mkd"]⟩

/-- `_WriterRegistration` (`_markitwrite.py` lines 16-19): a writer paired
with a numeric priority (Python `float`, modelled as a rational). -/
structure WriterRegistration where
  writer : DocumentWriter
  priority : ℚ
deriving DecidableEq

/-- The dispatcher class `MarkItWrite`: its state is the list of registered
writers, in registration order. -/
structure MarkItWrite where
  writers : List WriterRegistration
deriving DecidableEq

/-- `MarkItWrite.register_writer` (`_markitwrite.py` lines 55-62): appends a
registration. -/
def MarkItWrite.register_writer (m : MarkItWrite) (writer : DocumentWriter)
    (priority : ℚ := 0) : MarkItWrite :=
  ⟨m.writers ++ [⟨writer, priority⟩]⟩

/-- `MarkItWrite._register_builtins` (`_markitwrite.py` lines 38-53) with all
three optional dependencies importable: Docx, Pptx, Markdown writers in that
order, each at the default priority 0. -/
def builtinWriters : List WriterRegistration :=
  [⟨DocxWriter, 0⟩, ⟨PptxWriter, 0⟩, ⟨MarkdownWriter, 0⟩]

/-- A freshly constructed `MarkItWrite()` with built-in writers registered. -/
def MarkItWrite.withBuiltins : MarkItWrite := ⟨builtinWriters⟩

/-- Python truthiness of an optional string: `None` and the empty string are
falsy. -/
def optTruthy (o : Option PyStr) : Bool :=
  match o with
  | none => false
  | some l => !l.isEmpty

/-- Index of the last occurrence of `c` (Python `str.rfind`, as an option). -/
def lastIdxOf (c : Nat) : PyStr → Option Nat
  | [] => none
  | x :: xs =>
    match lastIdxOf c xs with
    | some i => some (i + 1)
    | none => if x == c then some 0 else none

/-- The extension part of `os.path.splitext` (CPython `genericpath._splitext`
with POSIX separators): everything from the last dot on, provided that dot
lies after the last path separator and the base name is not all dots before
it; otherwise the empty string. -/
def splitextExt (p : PyStr) : PyStr :=
  match lastIdxOf dotCode p with
  | none => []
  | some di =>
    let fi : Nat :=
      match lastIdxOf slashCode p with
      | none => 0
      | some si => si + 1
    let sepOk : Bool :=
      match lastIdxOf slashCode p with
      | none => true
      | some si => si < di
    let hasNonDot : Bool := ((p.drop fi).take (di - fi)).any (fun c => !(c == dotCode))
    if sepOk && hasNonDot then p.drop di else []

/-- `MarkItWrite._resolve_target_format` (`_markitwrite.py` lines 83-94):
an explicit (truthy) format wins and is normalized; otherwise the lowercased
extension of the target path when present; otherwise the hard-coded default
`".docx"`. -/
def MarkItWrite.resolve_target_format (_m : MarkItWrite)
    (target : Option PyStr) (target_format : Option PyStr) : PyStr :=
  if optTruthy target_format then
    normalizeFormat (target_format.getD [])
  else if optTruthy target then
    let ext := splitextExt (target.getD [])
    if ext.isEmpty then strCodes ".docx" else pyLower ext
  else strCodes ".docx"

/-- An in-memory binary stream (`io.BytesIO` / a caller-supplied `BinaryIO`):
a byte buffer plus a read position. -/
structure ByteStream where
  data : List Nat
  pos : Nat
deriving DecidableEq

/-- `stream.tell()`. -/
def ByteStream.tell (s : ByteStream) : Nat := s.pos

/-- `stream.read()`: returns the bytes from the current position to the end
and advances the position to the end of the buffer. -/
def ByteStream.read (s : ByteStream) : List Nat × ByteStream :=
  (s.data.drop s.pos, ⟨s.data, max s.pos s.data.length⟩)

/-- `stream.seek(p)`. -/
def ByteStream.seek (s : ByteStream) (p : Nat) : ByteStream := ⟨s.data, p⟩

/-- `io.BytesIO(data)`: a fresh stream positioned at the start. -/
def freshStream (data : List Nat) : ByteStream := ⟨data, 0⟩

/-- The stream branch of `MarkItWrite._resolve_image` (`_markitwrite.py`
lines 76-81): remember the position, read the remaining content, restore the
position, and return a fresh buffer plus the fixed default MIME type. -/
def MarkItWrite.resolve_image_stream (_m : MarkItWrite) (image_source : ByteStream) :
    (ByteStream × PyStr) × ByteStream :=
  let pos := image_source.tell
  let rd := image_source.read
  let restored := rd.2.seek pos
  ((freshStream rd.1, strCodes "image/png"), restored)

/-- Python `a.startswith(b)` on code-point lists. -/
def startsWithSeq : PyStr → PyStr → Bool
  | [], _ => true
  | _ :: _, [] => false
  | a :: as, b :: bs => a == b && startsWithSeq as bs

/-- Python `needle in hay` (contiguous substring containment). -/
def containsSeq (needle : PyStr) : PyStr → Bool
  | [] => startsWithSeq needle []
  | c :: t => startsWithSeq needle (c :: t) || containsSeq needle t

/-- Python `sep.join(parts)`. -/
def joinSep (sep : PyStr) : List PyStr → PyStr
  | [] => []
  | [x] => x
  | x :: y :: xs => x ++ sep ++ joinSep sep (y :: xs)

/-- The `available` list built by `MarkItWrite._find_writer`
(`_markitwrite.py` lines 102-104): every registered writer's accepted
extensions, concatenated in registration order. -/
def allExtensions (regs : List WriterRegistration) : List PyStr :=
  regs.foldl (fun acc r => acc ++ r.writer.ACCEPTED_EXTENSIONS) []

/-- `', '.join(available) or 'none (install optional deps)'`: the joined
extension list, or the fallback text when the join is the empty (falsy)
string. -/
def availOrNone (regs : List WriterRegistration) : PyStr :=
  if (joinSep (strCodes ", ") (allExtensions regs)).isEmpty then
    strCodes "none (install optional deps)"
  else joinSep (strCodes ", ") (allExtensions regs)

/-- The error message raised by `MarkItWrite._find_writer` when no writer
accepts the requested format (`_markitwrite.py` lines 105-108). -/
def noWriterMsg (regs : List WriterRegistration) (target_format : PyStr) : PyStr :=
  strCodes "No writer found for format '" ++ target_format ++
    strCodes "'. Available formats: " ++ availOrNone regs

/-- The comparison key used by `sorted(self._writers, key=lambda r: r.priority)`. -/
def regLE (a b : WriterRegistration) : Prop := a.priority ≤ b.priority

instance : DecidableRel regLE :=
  fun x y => inferInstanceAs (Decidable (x.priority ≤ y.priority))

instance : IsTotal WriterRegistration regLE := ⟨fun a b => le_total a.priority b.priority⟩

instance : IsTrans WriterRegistration regLE :=
  ⟨fun _ _ _ hab hbc => le_trans hab hbc⟩

/-- `MarkItWrite._find_writer` (`_markitwrite.py` lines 96-108): stable-sort
the registrations by ascending priority (Python's `sorted`, modelled by
insertion sort, which computes the same stable permutation), return the first
writer accepting the format, and otherwise fail with the no-writer message. -/
def MarkItWrite.find_writer (m : MarkItWrite) (target_format : PyStr) :
    Except PyStr DocumentWriter :=
  let sorted_writers := List.insertionSort regLE m.writers
  match sorted_writers.find? (fun r => r.writer.accepts target_format) with
  | some r => Except.ok r.writer
  | none => Except.error (noWriterMsg m.writers target_format)

/-- The first registration of minimal priority satisfying `P`, computed on
the unsorted registration list; used only to state and prove what
`find_writer` returns. -/
def bestReg (P : WriterRegistration → Bool) : List WriterRegistration →
    Option WriterRegistration
  | [] => none
  | r :: rs =>
    match bestReg P rs with
    | none => if P r then some r else none
    | some b => if P r && decide (r.priority ≤ b.priority) then some r else some b

/-- The base64 alphabet of `base64.b64encode`. -/
def b64chars : List Nat :=
  strCodes "ABCDEFGHIJKLMNOPQRSTUVWXYZabcdefghijklmnopqrstuvwxyz0123456789+/"

/-- Code point of the `i`-th base64 alphabet character. -/
def b64char (i : Nat) : Nat := b64chars.getD i 0

/-- The code point of the padding character `=`. -/
def eqCode : Nat := 61

/-- `base64.b64encode` on a byte string: standard base64 with `=` padding. -/
def b64encode : List Nat → List Nat
  | [] => []
  | [a] => [b64char (a / 4), b64char (a % 4 * 16), eqCode, eqCode]
  | [a, b] =>
    [b64char (a / 4), b64char (a % 4 * 16 + b / 16), b64char (b % 16 * 4), eqCode]
  | a :: b :: c :: rest =>
    b64char (a / 4) :: b64char (a % 4 * 16 + b / 16) ::
      b64char (b % 16 * 4 + c / 64) :: b64char (c % 64) :: b64encode rest

/-- Position of a code point in the base64 alphabet, counting from `i`. -/
def b64indexAux (c : Nat) : List Nat → Nat → Option Nat
  | [], _ => none
  | x :: xs, i => if x == c then some i else b64indexAux c xs (i + 1)

/-- Position of a code point in the base64 alphabet. -/
def b64index (c : Nat) : Option Nat := b64indexAux c b64chars 0

/-- Standard base64 decoding (the inverse direction used to state the
round-trip property): four characters at a time, honouring `=` padding in the
final group; fails on malformed input. -/
def b64decode : List Nat → Option (List Nat)
  | [] => some []
  | c1 :: c2 :: c3 :: c4 :: rest =>
    match b64index c1, b64index c2 with
    | some i1, some i2 =>
      if c3 == eqCode && c4 == eqCode && rest.isEmpty then
        some [i1 * 4 + i2 / 16]
      else
        match b64index c3 with
        | some i3 =>
          if c4 == eqCode && rest.isEmpty then
            some [i1 * 4 + i2 / 16, i2 % 16 * 16 + i3 / 4]
          else
            match b64index c4, b64decode rest with
            | some i4, some tl =>
              some ([i1 * 4 + i2 / 16, i2 % 16 * 16 + i3 / 4,
                i3 % 4 * 64 + i4] ++ tl)
            | _, _ => none
        | none => none
    | _, _ => none
  | _ => none

/-- The position-hint dictionary as read by `MarkdownWriter.insert_image`:
only the `"after_heading"` key is consulted. -/
structure MdPosition where
  after_heading : Option PyStr := none
deriving DecidableEq

/-- The keyword options read by `MarkdownWriter.insert_image`, with the
defaults used by the corresponding `kwargs.get` calls. -/
structure MdKwargs where
  alt_text : PyStr := strCodes "image"
  embed : Bool := true
  mime_type : PyStr := strCodes "image/png"
  image_dir : PyStr := strCodes "images"
  image_filename : Option PyStr := none
deriving DecidableEq

/-- `WriteResult` (`_base_writer.py` lines 10-17): output bytes, normalized
target format tag, count of inserted images.  The free-form `metadata`
mapping is not consulted by any verified claim and is left out of the
embedding. -/
structure WriteResult where
  output : List Nat
  target_format : PyStr
  images_inserted : Nat
deriving DecidableEq

/-- The saved-image filename of the referenced (non-embedded) Markdown mode:
the explicit (truthy) `image_filename` option, or `"image"` plus an extension
guessed from the MIME type (`mimetypes.guess_extension`, supplied as an
oracle parameter), falling back to `".png"`. -/
def guessedFilename (guessExt : PyStr → Option PyStr) (kw : MdKwargs) : PyStr :=
  if optTruthy kw.image_filename then kw.image_filename.getD []
  else
    strCodes "image" ++
      (match guessExt kw.mime_type with
       | some e => if e.isEmpty then strCodes ".png" else e
       | none => strCodes ".png")

/-- The `img_tag` built by `MarkdownWriter.insert_image`
(`_markdown_writer.py` lines 50-60): an inline base64 data reference in
embedded mode, a relative-path reference otherwise. -/
def mdImgTag (guessExt : PyStr → Option PyStr) (image_data : List Nat)
    (kw : MdKwargs) : PyStr :=
  if kw.embed then
    strCodes "![" ++ kw.alt_text ++ strCodes "](data:" ++ kw.mime_type ++
      strCodes ";base64," ++ b64encode image_data ++ strCodes ")"
  else
    strCodes "![" ++ kw.alt_text ++ strCodes "](" ++ kw.image_dir ++
      [slashCode] ++ guessedFilename guessExt kw ++ strCodes ")"

/-- Python `s.split("\n")`. -/
def splitNl : PyStr → List PyStr
  | [] => [[]]
  | c :: t =>
    if c == nlCode then [] :: splitNl t
    else
      match splitNl t with
      | h :: r => (c :: h) :: r
      | [] => [[c]]

/-- Python whitespace as stripped by `str.lstrip` / `str.rstrip` (ASCII). -/
def isPySpace (c : Nat) : Bool :=
  c == 32 || c == 9 || c == 10 || c == 13 || c == 11 || c == 12

/-- Python `s.lstrip()`. -/
def lstrip (s : PyStr) : PyStr := s.dropWhile (fun c => isPySpace c)

/-- Python `s.rstrip()`. -/
def rstrip (s : PyStr) : PyStr := (s.reverse.dropWhile (fun c => isPySpace c)).reverse

/-- The heading test of `MarkdownWriter.insert_image` line 82:
`line.lstrip().startswith("#") and heading in line`. -/
def isHeadingMatch (heading line : PyStr) : Bool :=
  startsWithSeq (strCodes "#") (lstrip line) && containsSeq heading line

/-- Python `list.insert(i, x)` (clamping an index past the end, like
Python). -/
def insertAt (i : Nat) (x : PyStr) (ls : List PyStr) : List PyStr :=
  ls.take i ++ x :: ls.drop i

/-- Index of the first element satisfying `p`, counting from `k`. -/
def findIdxAux (p : PyStr → Bool) : List PyStr → Nat → Option Nat
  | [], _ => none
  | x :: xs, k => if p x then some k else findIdxAux p xs (k + 1)

/-- Index of the first element satisfying `p`. -/
def findFirstIdx (p : PyStr → Bool) (l : List PyStr) : Option Nat :=
  findIdxAux p l 0

/-- The output-content construction of `MarkdownWriter.insert_image`
(`_markdown_writer.py` lines 72-94): append after an existing body, insert
after the first matching heading line when an `"after_heading"` hint is
given, or emit the bare tag when no body is supplied. -/
def buildMdContent (img_tag : PyStr) (document : Option PyStr)
    (position : Option MdPosition) : PyStr :=
  match document with
  | some existing =>
    match position with
    | some pos =>
      match pos.after_heading with
      | some heading =>
        match findFirstIdx (fun line => isHeadingMatch heading line)
            (splitNl existing) with
        | some i =>
          joinSep [nlCode]
            (insertAt (i + 2) img_tag (insertAt (i + 1) [] (splitNl existing)))
        | none => rstrip existing ++ strCodes "\n\n" ++ img_tag ++ strCodes "\n"
      | none => rstrip existing ++ strCodes "\n\n" ++ img_tag ++ strCodes "\n"
    | none => rstrip existing ++ strCodes "\n\n" ++ img_tag ++ strCodes "\n"
  | none => img_tag ++ strCodes "\n"

/-- `MarkdownWriter.insert_image` (`_markdown_writer.py` lines 34-106):
builds the image tag and the output content, and always reports target
format `".md"` with one image inserted.  `guessExt` is the
`mimetypes.guess_extension` oracle; the side effect of saving a referenced
image file does not affect the returned result and is not modelled. -/
def MarkdownWriter.insert_image (guessExt : PyStr → Option PyStr)
    (image_data : List Nat) (document_stream : Option PyStr)
    (_target_format : PyStr) (position : Option MdPosition)
    (kw : MdKwargs) : WriteResult :=
  { output := buildMdContent (mdImgTag guessExt image_data kw) document_stream position
    target_format := strCodes ".md"
    images_inserted := 1 }

/-- The position-hint dictionary as read by `DocxWriter.insert_image`. -/
structure DocxPosition where
  paragraph : Option Int := none
  after_text : Option PyStr := none
deriving DecidableEq

/-- Where `DocxWriter.insert_image` places the picture. -/
inductive DocxInsertPoint where
  | afterParagraph (idx : Nat)
  | atEnd
deriving DecidableEq

/-- The insertion-point decision of `DocxWriter.insert_image`
(`_docx_writer.py` lines 70-95): a `"paragraph"` hint inside the valid index
range inserts after that paragraph and otherwise falls back to the document
end; an `"after_text"` hint inserts after the first paragraph containing the
text and otherwise falls back to the end; no hint appends at the end.
`paragraphs` holds the text of the document's paragraphs. -/
def docxInsertPoint (position : Option DocxPosition)
    (paragraphs : List PyStr) : DocxInsertPoint :=
  match position with
  | some pos =>
    match pos.paragraph with
    | some n =>
      if 0 ≤ n ∧ n < (paragraphs.length : Int) then
        DocxInsertPoint.afterParagraph n.toNat
      else DocxInsertPoint.atEnd
    | none =>
      match pos.after_text with
      | some search_text =>
        match findFirstIdx (fun p => containsSeq search_text p) paragraphs with
        | some i => DocxInsertPoint.afterParagraph i
        | none => DocxInsertPoint.atEnd
      | none => DocxInsertPoint.atEnd
  | none => DocxInsertPoint.atEnd

/-- The position-hint dictionary as read by `PptxWriter.insert_image`. -/
structure PptxPosition where
  slide : Option Int := none
  left : Option ℚ := none
  top : Option ℚ := none
deriving DecidableEq

/-- Which slide `PptxWriter.insert_image` places the picture on. -/
inductive PptxSlideChoice where
  | existing (idx : Nat)
  | newSlide
deriving DecidableEq

/-- The slide-choice decision of `PptxWriter.insert_image`
(`_pptx_writer.py` lines 58-69): a 1-indexed `"slide"` hint within
`1..slideCount` selects that existing slide; anything else (out of range, no
hint, no position) adds a new blank slide. -/
def pptxSlideChoice (position : Option PptxPosition)
    (slideCount : Nat) : PptxSlideChoice :=
  match position with
  | some pos =>
    match pos.slide with
    | some n =>
      if 1 ≤ n ∧ n ≤ (slideCount : Int) then
        PptxSlideChoice.existing (n.toNat - 1)
      else PptxSlideChoice.newSlide
    | none => PptxSlideChoice.newSlide
  | none => PptxSlideChoice.newSlide

/-- Lexicographic order on Python strings (`<=` on code-point lists), the
order used by Python's `sorted` on strings. -/
def strLeB : PyStr → PyStr → Bool
  | [], _ => true
  | _ :: _, [] => false
  | a :: as, b :: bs => if a < b then true else if b < a then false else strLeB as bs

/-- `strLeB` as a relation. -/
def strLe (a b : PyStr) : Prop := strLeB a b = true

instance : DecidableRel strLe :=
  fun a b => inferInstanceAs (Decidable (strLeB a b = true))

/-- `MarkItWrite.supported_formats` (`_markitwrite.py` lines 164-169):
`sorted(set(formats))` where `formats` concatenates every registered
writer's accepted extensions; `set` removes duplicates and `sorted` is
modelled by insertion sort over the string order. -/
def MarkItWrite.supported_formats (m : MarkItWrite) : List PyStr :=
  List.insertionSort strLe (allExtensions m.writers).dedup

/-- The two failure classes whose order C4 talks about: the no-writer error
of `_find_writer` and an I/O failure while resolving the image source. -/
inductive PasteError where
  | noWriter (msg : PyStr)
  | imageIO
deriving DecidableEq

/-- The failure-ordering skeleton of `MarkItWrite.paste`
(`_markitwrite.py` lines 137-140): line 137 resolves the target format,
line 138 selects the writer (raising the no-writer error), and only then
line 140 resolves the image source, which is where an unreadable source
raises its I/O error (`image_readable = false`). -/
def MarkItWrite.paste_select (m : MarkItWrite)
    (target target_format : Option PyStr) (image_readable : Bool) :
    Except PasteError DocumentWriter :=
  match m.find_writer (m.resolve_target_format target target_format) with
  | Except.error msg => Except.error (PasteError.noWriter msg)
  | Except.ok w =>
    if image_readable then Except.ok w else Except.error PasteError.imageIO

-- ### end of definitions ###

end Markitwrite

namespace Markitwrite

-- ### theorems ###

theorem pyCharLower_idem (c : Nat) : pyCharLower (pyCharLower c) = pyCharLower c := by
  unfold pyCharLower
  split
  · rename_i h
    rw [if_neg]
    omega
  · rfl

theorem pyLower_idem (s : PyStr) : pyLower (pyLower s) = pyLower s := by
  unfold pyLower
  rw [List.map_map]
  apply List.map_congr_left
  intro c _
  exact pyCharLower_idem c

theorem pyCharLower_dot (c : Nat) : (pyCharLower c == dotCode) = (c == dotCode) := by
  unfold pyCharLower dotCode
  split
  · rename_i h
    have h1 : ¬ c + 32 = 46 := by omega
    have h2 : ¬ c = 46 := by omega
    have h3 : ¬ c = 14 := by omega
    simp [h1, h2, h3]
  · rfl

theorem startsWithDot_pyLower (s : PyStr) :
    startsWithDot (pyLower s) = startsWithDot s := by
  cases s with
  | nil => rfl
  | cons c t => simp [startsWithDot, pyLower, pyCharLower_dot]

theorem normalizeFormat_pyLower (s : PyStr) :
    normalizeFormat (pyLower s) = normalizeFormat s := by
  simp only [normalizeFormat, pyLower_idem, startsWithDot_pyLower]

theorem normalizeFormat_dotted (s : PyStr) (h : startsWithDot s = false) :
    normalizeFormat (dotCode :: s) = normalizeFormat s := by
  unfold normalizeFormat
  have hdot : pyCharLower dotCode = dotCode := by decide
  have h1 : pyLower (dotCode :: s) = dotCode :: pyLower s := by
    simp [pyLower, hdot]
  rw [h1]
  have h2 : startsWithDot (dotCode :: pyLower s) = true := by
    simp [startsWithDot]
  rw [if_pos h2]
  have h3 : startsWithDot (pyLower s) = false := by
    rw [startsWithDot_pyLower]; exact h
  rw [if_neg (by simp [h3])]

/-- C2: `accepts` returns true exactly when the normalization of the argument
(lowercased, dot-prefixed when needed) is among the writer's declared
extensions; consequently it is case-insensitive and gives the same answer
with or without a leading dot. -/
theorem accepts_spec (w : DocumentWriter) (s : PyStr) :
    (w.accepts s = true ↔ normalizeFormat s ∈ w.ACCEPTED_EXTENSIONS) ∧
    w.accepts (pyLower s) = w.accepts s ∧
    (startsWithDot s = false → w.accepts (dotCode :: s) = w.accepts s) := by
  refine ⟨?_, ?_, ?_⟩
  · simp [DocumentWriter.accepts]
  · simp [DocumentWriter.accepts, normalizeFormat_pyLower]
  · intro h
    simp [DocumentWriter.accepts, normalizeFormat_dotted s h]

theorem normalizeFormat_startsWithDot (s : PyStr) :
    startsWithDot (normalizeFormat s) = true := by
  show startsWithDot
      (if startsWithDot (pyLower s) = true then pyLower s
        else dotCode :: pyLower s) = true
  by_cases hsd : startsWithDot (pyLower s) = true
  · rw [if_pos hsd]; exact hsd
  · rw [if_neg hsd]; simp [startsWithDot]

theorem pyLower_normalizeFormat (s : PyStr) :
    pyLower (normalizeFormat s) = normalizeFormat s := by
  show pyLower
      (if startsWithDot (pyLower s) = true then pyLower s
        else dotCode :: pyLower s) =
    (if startsWithDot (pyLower s) = true then pyLower s else dotCode :: pyLower s)
  by_cases hsd : startsWithDot (pyLower s) = true
  · rw [if_pos hsd]; exact pyLower_idem s
  · rw [if_neg hsd]
    show pyCharLower dotCode :: pyLower (pyLower s) = dotCode :: pyLower s
    rw [pyLower_idem s]
    norm_num [pyCharLower, dotCode]

theorem lastIdxOf_drop_head (c : Nat) :
    ∀ (l : PyStr) (i : Nat), lastIdxOf c l = some i → (l.drop i).head? = some c
  | [], i, h => by simp [lastIdxOf] at h
  | x :: xs, i, h => by
    unfold lastIdxOf at h
    cases hre : lastIdxOf c xs with
    | some j =>
      rw [hre] at h
      cases h
      simpa using lastIdxOf_drop_head c xs j hre
    | none =>
      rw [hre] at h
      by_cases hx : x = c
      · simp [hx] at h
        cases h
        simp
        omega
      · simp [hx] at h

theorem splitextExt_dot (p : PyStr) (h : (splitextExt p).isEmpty = false) :
    startsWithDot (splitextExt p) = true := by
  unfold splitextExt at h ⊢
  cases hdi : lastIdxOf dotCode p with
  | none => simp [hdi] at h
  | some di =>
    simp only [hdi] at h ⊢
    split at h
    · rename_i hcond
      rw [if_pos hcond]
      have hh := lastIdxOf_drop_head dotCode p di hdi
      cases hd : (p.drop di) with
      | nil => rw [hd] at hh; simp at hh
      | cons a t =>
        rw [hd] at hh
        simp at hh
        simp [startsWithDot, hd, hh]
    · simp at h

/-- C3: target-format resolution.  A truthy explicit format wins and is
normalized; otherwise the lowercased target-path extension when present;
otherwise the hard-coded default `".docx"`.  The result is always a
dot-prefixed lowercase string, and with a fixed truthy explicit format the
result does not depend on the target path. -/
theorem resolve_target_format_spec (m : MarkItWrite)
    (target target_format : Option PyStr) :
    (optTruthy target_format = true →
      m.resolve_target_format target target_format =
        normalizeFormat (target_format.getD [])) ∧
    (optTruthy target_format = false → optTruthy target = true →
      (splitextExt (target.getD [])).isEmpty = false →
      m.resolve_target_format target target_format =
        pyLower (splitextExt (target.getD []))) ∧
    (optTruthy target_format = false →
      (optTruthy target = false ∨ (splitextExt (target.getD [])).isEmpty = true) →
      m.resolve_target_format target target_format = strCodes ".docx") ∧
    (startsWithDot (m.resolve_target_format target target_format) = true ∧
      pyLower (m.resolve_target_format target target_format) =
        m.resolve_target_format target target_format) ∧
    (optTruthy target_format = true → ∀ t u : Option PyStr,
      m.resolve_target_format t target_format =
        m.resolve_target_format u target_format) := by
  refine ⟨?_, ?_, ?_, ?_, ?_⟩
  · intro h
    simp [MarkItWrite.resolve_target_format, h]
  · intro h ht hext
    simp [MarkItWrite.resolve_target_format, h, ht, hext]
  · intro h hcase
    cases hcase with
    | inl ht => simp [MarkItWrite.resolve_target_format, h, ht]
    | inr hext => simp [MarkItWrite.resolve_target_format, h, hext]
  · by_cases hf : optTruthy target_format = true
    · have hr : m.resolve_target_format target target_format =
          normalizeFormat (target_format.getD []) := by
        simp [MarkItWrite.resolve_target_format, hf]
      rw [hr]
      exact ⟨normalizeFormat_startsWithDot _, pyLower_normalizeFormat _⟩
    · by_cases ht : optTruthy target = true
      · by_cases hext : (splitextExt (target.getD [])).isEmpty = true
        · have hr : m.resolve_target_format target target_format =
              strCodes ".docx" := by
            simp [MarkItWrite.resolve_target_format, hf, ht, hext]
          rw [hr]
          exact ⟨by decide, by decide⟩
        · have hne' : (splitextExt (target.getD [])).isEmpty = false := by
            simpa using hext
          have hr : m.resolve_target_format target target_format =
              pyLower (splitextExt (target.getD [])) := by
            simp [MarkItWrite.resolve_target_format, hf, ht, hne']
          rw [hr]
          exact ⟨by rw [startsWithDot_pyLower]; exact splitextExt_dot _ hne',
            pyLower_idem _⟩
      · have hr : m.resolve_target_format target target_format =
            strCodes ".docx" := by
          simp [MarkItWrite.resolve_target_format, hf, ht]
        rw [hr]
        exact ⟨by decide, by decide⟩
  · intro h t u
    simp [MarkItWrite.resolve_target_format, h]

/-- Witness for C3 at concrete inputs: explicit format `"PDF"` (truthy) and a
target path `"report.DOCX"`, plus the path-extension branch without an
explicit format. -/
theorem resolve_target_format_spec_witness :
    MarkItWrite.withBuiltins.resolve_target_format (some (strCodes "report.DOCX"))
        (some (strCodes "PDF")) =
      normalizeFormat (strCodes "PDF") ∧
    MarkItWrite.withBuiltins.resolve_target_format (some (strCodes "report.DOCX"))
        none =
      pyLower (splitextExt (strCodes "report.DOCX")) ∧
    MarkItWrite.withBuiltins.resolve_target_format none none = strCodes ".docx" ∧
    MarkItWrite.withBuiltins.resolve_target_format (some (strCodes "report.DOCX"))
        (some (strCodes "PDF")) =
      MarkItWrite.withBuiltins.resolve_target_format (some (strCodes "x.md"))
        (some (strCodes "PDF")) := by
  refine ⟨?_, ?_, ?_, ?_⟩
  · exact (resolve_target_format_spec MarkItWrite.withBuiltins
      (some (strCodes "report.DOCX")) (some (strCodes "PDF"))).1 (by decide)
  · exact (resolve_target_format_spec MarkItWrite.withBuiltins
      (some (strCodes "report.DOCX")) none).2.1 (by decide) (by decide) (by decide)
  · exact (resolve_target_format_spec MarkItWrite.withBuiltins none none).2.2.1
      (by decide) (Or.inl (by decide))
  · exact (resolve_target_format_spec MarkItWrite.withBuiltins
      (some (strCodes "report.DOCX")) (some (strCodes "PDF"))).2.2.2.2 (by decide)
      (some (strCodes "report.DOCX")) (some (strCodes "x.md"))

/-- C10: resolving a caller-supplied binary stream reads the remaining
content into a fresh buffer and leaves the caller's stream exactly as it was
(same data, same position). -/
theorem resolve_image_stream_frame (m : MarkItWrite) (s : ByteStream) :
    m.resolve_image_stream s =
      ((freshStream (s.data.drop s.pos), strCodes "image/png"), s) := by
  cases s with
  | mk data pos =>
    simp [MarkItWrite.resolve_image_stream, ByteStream.read, ByteStream.seek,
      ByteStream.tell]

theorem startsWithSeq_append (n v : PyStr) : startsWithSeq n (n ++ v) = true := by
  induction n with
  | nil => rfl
  | cons a as ih => simp [startsWithSeq, ih]

theorem startsWithSeq_mono (n : PyStr) :
    ∀ (x h : PyStr), startsWithSeq n x = true → startsWithSeq n (x ++ h) = true := by
  induction n with
  | nil => intro x h _; rfl
  | cons a as ih =>
    intro x h hx
    cases x with
    | nil => simp [startsWithSeq] at hx
    | cons b xs =>
      simp [startsWithSeq] at hx ⊢
      exact ⟨hx.1, ih xs h hx.2⟩

theorem containsSeq_nil (h : PyStr) : containsSeq [] h = true := by
  cases h <;> simp [containsSeq, startsWithSeq]

theorem containsSeq_self_append (n v : PyStr) : containsSeq n (n ++ v) = true := by
  cases n with
  | nil => exact containsSeq_nil v
  | cons a as =>
    have h1 : startsWithSeq (a :: as) ((a :: as) ++ v) = true :=
      startsWithSeq_append (a :: as) v
    show containsSeq (a :: as) (a :: (as ++ v)) = true
    simp only [containsSeq]
    rw [show (a :: (as ++ v)) = ((a :: as) ++ v) from rfl, h1]
    rfl

theorem containsSeq_of_split : ∀ (u n v : PyStr), containsSeq n (u ++ (n ++ v)) = true
  | [], n, v => containsSeq_self_append n v
  | c :: u', n, v => by
    show containsSeq n (c :: (u' ++ (n ++ v))) = true
    simp only [containsSeq]
    rw [containsSeq_of_split u' n v]
    simp

theorem containsSeq_append_left (n h : PyStr) (hc : containsSeq n h = true) :
    ∀ x, containsSeq n (x ++ h) = true
  | [] => hc
  | c :: x' => by
    show containsSeq n (c :: (x' ++ h)) = true
    simp only [containsSeq]
    rw [containsSeq_append_left n h hc x']
    simp

theorem containsSeq_append_right (n : PyStr) :
    ∀ (x h : PyStr), containsSeq n x = true → containsSeq n (x ++ h) = true
  | [], h, hc => by
    have : n = [] := by
      cases n with
      | nil => rfl
      | cons a as => simp [containsSeq, startsWithSeq] at hc
    subst this
    exact containsSeq_nil _
  | c :: x', h, hc => by
    show containsSeq n (c :: (x' ++ h)) = true
    simp only [containsSeq] at hc ⊢
    rcases Bool.or_eq_true_iff.mp hc with h1 | h2
    · have hsw := startsWithSeq_mono n (c :: x') h h1
      rw [List.cons_append] at hsw
      rw [hsw]
      simp
    · rw [containsSeq_append_right n x' h h2]
      simp

theorem joinSep_split (sep : PyStr) :
    ∀ (L : List PyStr) (e : PyStr), e ∈ L →
      ∃ u v, joinSep sep L = u ++ (e ++ v)
  | [], e, he => by simp at he
  | [x], e, he => by
    simp at he
    subst he
    exact ⟨[], [], by simp [joinSep]⟩
  | x :: y :: xs, e, he => by
    rcases List.mem_cons.mp he with h | h
    · subst h
      exact ⟨[], sep ++ joinSep sep (y :: xs), by simp [joinSep]⟩
    · obtain ⟨u, v, hu⟩ := joinSep_split sep (y :: xs) e h
      exact ⟨x ++ sep ++ u, v, by simp [joinSep, hu]⟩

theorem mem_foldl_ext (x : PyStr) :
    ∀ (regs : List WriterRegistration) (acc : List PyStr),
      (x ∈ regs.foldl (fun acc r => acc ++ r.writer.ACCEPTED_EXTENSIONS) acc ↔
        x ∈ acc ∨ ∃ r ∈ regs, x ∈ r.writer.ACCEPTED_EXTENSIONS)
  | [], acc => by simp
  | r :: rs, acc => by
    simp only [List.foldl_cons]
    rw [mem_foldl_ext x rs (acc ++ r.writer.ACCEPTED_EXTENSIONS)]
    constructor
    · rintro (h | h)
      · rcases List.mem_append.mp h with h1 | h2
        · exact Or.inl h1
        · exact Or.inr ⟨r, List.mem_cons_self r rs, h2⟩
      · obtain ⟨w, hw, hx⟩ := h
        exact Or.inr ⟨w, List.mem_cons_of_mem r hw, hx⟩
    · rintro (h | ⟨w, hw, hx⟩)
      · exact Or.inl (List.mem_append.mpr (Or.inl h))
      · rcases List.mem_cons.mp hw with rfl | hw2
        · exact Or.inl (List.mem_append.mpr (Or.inr hx))
        · exact Or.inr ⟨w, hw2, hx⟩

theorem mem_allExtensions (x : PyStr) (regs : List WriterRegistration) :
    x ∈ allExtensions regs ↔ ∃ r ∈ regs, x ∈ r.writer.ACCEPTED_EXTENSIONS := by
  unfold allExtensions
  rw [mem_foldl_ext]
  simp

theorem find?_orderedInsert (P : WriterRegistration → Bool) (r : WriterRegistration) :
    ∀ (m : List WriterRegistration), m.Sorted regLE →
      ((m.orderedInsert regLE r).find? P =
        match m.find? P with
        | none => if P r then some r else none
        | some b =>
          if r.priority ≤ b.priority then (if P r then some r else some b)
          else some b)
  | [], _ => by
    by_cases hP : P r <;> simp [List.orderedInsert, List.find?, hP]
  | y :: ys, hm => by
    have hys : ys.Sorted regLE := (List.sorted_cons.mp hm).2
    have hyall : ∀ b ∈ ys, regLE y b := (List.sorted_cons.mp hm).1
    by_cases hle : regLE r y
    · have heq : (y :: ys).orderedInsert regLE r = r :: y :: ys :=
        List.orderedInsert_of_le regLE ys hle
      rw [heq]
      have hle' : r.priority ≤ y.priority := hle
      by_cases hy : P y
      · have hfind : (y :: ys).find? P = some y := List.find?_cons_of_pos _ hy
        rw [hfind]
        by_cases hP : P r <;>
          simp [List.find?_cons_of_pos, List.find?_cons_of_neg, hP, hy, hle']
      · have hfind : (y :: ys).find? P = ys.find? P :=
          List.find?_cons_of_neg _ (by simpa using hy)
        rw [hfind]
        cases hfind2 : ys.find? P with
        | none =>
          by_cases hP : P r <;>
            simp [List.find?_cons_of_pos, List.find?_cons_of_neg, hP, hy, hfind2]
        | some b =>
          have hb : b ∈ ys := List.mem_of_find?_eq_some hfind2
          have hrb : r.priority ≤ b.priority := le_trans hle (hyall b hb)
          by_cases hP : P r <;>
            simp [List.find?_cons_of_pos, List.find?_cons_of_neg, hP, hy,
              hfind2, hrb]
    · have hlt : ¬ r.priority ≤ y.priority := hle
      have heq : (y :: ys).orderedInsert regLE r = y :: ys.orderedInsert regLE r := by
        show List.orderedInsert regLE r (y :: ys) = _
        simp only [List.orderedInsert, if_neg hle]
      rw [heq]
      by_cases hy : P y
      · have hfind : (y :: ys).find? P = some y := List.find?_cons_of_pos _ hy
        rw [hfind]
        simp [List.find?_cons_of_pos, hy, hlt]
      · have hfind : (y :: ys).find? P = ys.find? P :=
          List.find?_cons_of_neg _ (by simpa using hy)
        rw [hfind]
        rw [List.find?_cons_of_neg _ (by simpa using hy)]
        exact find?_orderedInsert P r ys hys

theorem find?_insertionSort (P : WriterRegistration → Bool) :
    ∀ (l : List WriterRegistration),
      (List.insertionSort regLE l).find? P = bestReg P l
  | [] => rfl
  | r :: rs => by
    show ((List.insertionSort regLE rs).orderedInsert regLE r).find? P = _
    rw [find?_orderedInsert P r _ (List.sorted_insertionSort regLE rs),
      find?_insertionSort P rs]
    simp only [bestReg]
    cases hb : bestReg P rs with
    | none => rfl
    | some b =>
      by_cases hP : P r <;> by_cases hle : r.priority ≤ b.priority <;>
        simp [hP, hle]

theorem bestReg_none (P : WriterRegistration → Bool) :
    ∀ (l : List WriterRegistration),
      (bestReg P l = none ↔ ∀ r ∈ l, P r = false)
  | [] => by simp [bestReg]
  | r :: rs => by
    simp only [bestReg]
    cases hb : bestReg P rs with
    | none =>
      have ih := (bestReg_none P rs).mp hb
      by_cases hP : P r
      · simp [hP, ih]
      · simp only [if_neg (by simp [hP] : ¬ P r = true)]
        simp [hP]
        exact ih
    | some b =>
      have hne : ¬ (∀ x ∈ rs, P x = false) := by
        intro hall
        rw [(bestReg_none P rs).mpr hall] at hb
        exact Option.noConfusion hb
      have hex : ∃ x ∈ rs, P x = true := by
        by_contra hno
        push_neg at hno
        exact hne fun x hx => by simpa using hno x hx
      constructor
      · intro h
        by_cases hc : (P r && decide (r.priority ≤ b.priority)) = true <;>
          simp [hc] at h
      · intro hall
        obtain ⟨x, hx, hPx⟩ := hex
        have hfx := hall x (List.mem_cons_of_mem r hx)
        rw [hfx] at hPx
        exact Bool.noConfusion hPx

theorem bestReg_some (P : WriterRegistration → Bool) :
    ∀ (l : List WriterRegistration) (t : WriterRegistration),
      bestReg P l = some t →
      ∃ l₁ l₂, l = l₁ ++ t :: l₂ ∧ P t = true ∧
        (∀ x ∈ l₁, P x = true → t.priority < x.priority) ∧
        (∀ x ∈ l₂, P x = true → t.priority ≤ x.priority)
  | [], t, h => by simp [bestReg] at h
  | r :: rs, t, h => by
    simp only [bestReg] at h
    cases hb : bestReg P rs with
    | none =>
      rw [hb] at h
      have hall := (bestReg_none P rs).mp hb
      by_cases hP : P r
      · rw [if_pos hP] at h
        cases h
        refine ⟨[], rs, by simp, hP, by simp, ?_⟩
        intro x hx hPx
        rw [hall x hx] at hPx
        exact Bool.noConfusion hPx
      · rw [if_neg hP] at h
        exact Option.noConfusion h
    | some b =>
      rw [hb] at h
      dsimp only at h
      obtain ⟨r₁, r₂, hsplit, hPb, hbefore, hafter⟩ := bestReg_some P rs b hb
      by_cases hcond : P r = true ∧ r.priority ≤ b.priority
      · have hc : (P r && decide (r.priority ≤ b.priority)) = true := by
          rw [hcond.1, decide_eq_true hcond.2]
          rfl
        rw [if_pos hc] at h
        cases h
        refine ⟨[], rs, by simp, hcond.1, by simp, ?_⟩
        intro x hx hPx
        rw [hsplit] at hx
        rcases List.mem_append.mp hx with hx1 | hx2
        · exact le_trans hcond.2 (le_of_lt (hbefore x hx1 hPx))
        · rcases List.mem_cons.mp hx2 with rfl | hx3
          · exact hcond.2
          · exact le_trans hcond.2 (hafter x hx3 hPx)
      · have hc : ¬ (P r && decide (r.priority ≤ b.priority)) = true := by
          intro hc
          simp only [Bool.and_eq_true, decide_eq_true_eq] at hc
          exact hcond hc
        rw [if_neg hc] at h
        cases h
        refine ⟨r :: r₁, r₂, by simp [hsplit], hPb, ?_, hafter⟩
        intro x hx hPx
        rcases List.mem_cons.mp hx with rfl | hx1
        · by_cases hle : x.priority ≤ t.priority
          · exact absurd ⟨hPx, hle⟩ hcond
          · exact lt_of_not_le hle
        · exact hbefore x hx1 hPx

/-- C1: `_find_writer` returns the writer of the accepting registration with
the smallest priority, earliest-registered on ties; when no registration
accepts, it fails with a message containing `"No writer found"` and every
registered writer's accepted extensions. -/
theorem find_writer_spec (m : MarkItWrite) (target_format : PyStr) :
    ((∃ r ∈ m.writers, r.writer.accepts target_format = true) →
      ∃ l₁ t l₂, m.writers = l₁ ++ t :: l₂ ∧
        t.writer.accepts target_format = true ∧
        m.find_writer target_format = Except.ok t.writer ∧
        (∀ x ∈ l₁, x.writer.accepts target_format = true →
          t.priority < x.priority) ∧
        (∀ x ∈ l₂, x.writer.accepts target_format = true →
          t.priority ≤ x.priority)) ∧
    ((∀ r ∈ m.writers, r.writer.accepts target_format = false) →
      ∃ msg, m.find_writer target_format = Except.error msg ∧
        containsSeq (strCodes "No writer found") msg = true ∧
        ∀ r ∈ m.writers, ∀ e ∈ r.writer.ACCEPTED_EXTENSIONS,
          containsSeq e msg = true) := by
  constructor
  · intro hex
    cases hbest : bestReg (fun r => r.writer.accepts target_format) m.writers with
    | none =>
      obtain ⟨r, hr, hacc⟩ := hex
      have hfalse : r.writer.accepts target_format = false :=
        (bestReg_none _ m.writers).mp hbest r hr
      rw [hacc] at hfalse
      exact Bool.noConfusion hfalse
    | some t =>
      obtain ⟨l₁, l₂, hsplit, hPt, hbefore, hafter⟩ :=
        bestReg_some _ m.writers t hbest
      refine ⟨l₁, t, l₂, hsplit, hPt, ?_, hbefore, hafter⟩
      show (match (List.insertionSort regLE m.writers).find?
          (fun r => r.writer.accepts target_format) with
        | some r => Except.ok r.writer
        | none => Except.error (noWriterMsg m.writers target_format)) =
        Except.ok t.writer
      rw [find?_insertionSort _ m.writers, hbest]
  · intro hall
    have hnone : bestReg (fun r => r.writer.accepts target_format) m.writers =
        none := (bestReg_none _ m.writers).mpr hall
    refine ⟨noWriterMsg m.writers target_format, ?_, ?_, ?_⟩
    · show (match (List.insertionSort regLE m.writers).find?
          (fun r => r.writer.accepts target_format) with
        | some r => Except.ok r.writer
        | none => Except.error (noWriterMsg m.writers target_format)) =
        Except.error (noWriterMsg m.writers target_format)
      rw [find?_insertionSort _ m.writers, hnone]
    · have hpre : containsSeq (strCodes "No writer found")
          (strCodes "No writer found for format '") = true := by decide
      unfold noWriterMsg
      exact containsSeq_append_right _ _ _
        (containsSeq_append_right _ _ _
          (containsSeq_append_right _ _ _ hpre))
    · intro r hr e he
      have hmem : e ∈ allExtensions m.writers :=
        (mem_allExtensions e m.writers).mpr ⟨r, hr, he⟩
      obtain ⟨u, v, huv⟩ :=
        joinSep_split (strCodes ", ") (allExtensions m.writers) e hmem
      unfold noWriterMsg
      by_cases hj : (joinSep (strCodes ", ") (allExtensions m.writers)).isEmpty
      · have he0 : e = [] := by
          rw [huv] at hj
          rcases u with _ | ⟨a, u'⟩
          · rcases e with _ | ⟨b, e'⟩
            · rfl
            · simp at hj
          · simp at hj
        subst he0
        exact containsSeq_nil _
      · have havail : availOrNone m.writers = u ++ (e ++ v) := by
          unfold availOrNone
          rw [if_neg (by simpa using hj)]
          exact huv
        rw [havail]
        exact containsSeq_append_left e (u ++ (e ++ v))
          (containsSeq_of_split u e v) _

/-- Witness for C1: with the built-in writers, `".md"` selects the Markdown
writer branch and `".xyz"` takes the error branch. -/
theorem find_writer_spec_witness :
    (∃ l₁ t l₂, MarkItWrite.withBuiltins.writers = l₁ ++ t :: l₂ ∧
      t.writer.accepts (strCodes ".md") = true ∧
      MarkItWrite.withBuiltins.find_writer (strCodes ".md") = Except.ok t.writer ∧
      (∀ x ∈ l₁, x.writer.accepts (strCodes ".md") = true →
        t.priority < x.priority) ∧
      (∀ x ∈ l₂, x.writer.accepts (strCodes ".md") = true →
        t.priority ≤ x.priority)) ∧
    (∃ msg, MarkItWrite.withBuiltins.find_writer (strCodes ".xyz") =
        Except.error msg ∧
      containsSeq (strCodes "No writer found") msg = true ∧
      ∀ r ∈ MarkItWrite.withBuiltins.writers,
        ∀ e ∈ r.writer.ACCEPTED_EXTENSIONS, containsSeq e msg = true) := by
  constructor
  · exact (find_writer_spec MarkItWrite.withBuiltins (strCodes ".md")).1
      (by decide)
  · exact (find_writer_spec MarkItWrite.withBuiltins (strCodes ".xyz")).2
      (by decide)

/-- Witness for C2 at concrete inputs: `"MD"` (no dot, uppercase) against the
Markdown writer. -/
theorem accepts_spec_witness :
    (MarkdownWriter.accepts (strCodes "MD") = true ↔
      normalizeFormat (strCodes "MD") ∈ MarkdownWriter.ACCEPTED_EXTENSIONS) ∧
    MarkdownWriter.accepts (pyLower (strCodes "MD")) =
      MarkdownWriter.accepts (strCodes "MD") ∧
    MarkdownWriter.accepts (dotCode :: strCodes "MD") =
      MarkdownWriter.accepts (strCodes "MD") := by
  have h := accepts_spec MarkdownWriter (strCodes "MD")
  exact ⟨h.1, h.2.1, h.2.2 (by decide)⟩

/-- Counterexample to C4 as stated: with the built-in writers, an unreadable
image source (`image_readable = false`) and the unsupported target format
`".xyz"`, `paste` does not raise the image-resolution I/O error — the
no-writer error wins, because lines 137-138 run before line 140. -/
theorem paste_order_counterexample :
    ¬ (MarkItWrite.withBuiltins.paste_select none (some (strCodes ".xyz")) false =
      Except.error PasteError.imageIO) := by
  intro h
  have hres : MarkItWrite.withBuiltins.paste_select none (some (strCodes ".xyz"))
      false =
      Except.error (PasteError.noWriter
        (noWriterMsg builtinWriters (strCodes ".xyz"))) := by rfl
  rw [hres] at h
  exact PasteError.noConfusion (Except.error.inj h)

/-- C4, amended: in every call to `paste` the target format is resolved and
a writer selected before the image source is resolved; consequently, for an
input whose target format no registered writer accepts, the no-writer error
is the one raised regardless of whether the image source is readable, and
the image-resolution I/O error is raised only after writer selection has
succeeded. -/
theorem paste_select_order (m : MarkItWrite)
    (target target_format : Option PyStr) (image_readable : Bool) :
    (∀ msg, m.find_writer (m.resolve_target_format target target_format) =
        Except.error msg →
      m.paste_select target target_format image_readable =
        Except.error (PasteError.noWriter msg)) ∧
    (∀ w, m.find_writer (m.resolve_target_format target target_format) =
        Except.ok w → image_readable = false →
      m.paste_select target target_format image_readable =
        Except.error PasteError.imageIO) := by
  constructor
  · intro msg h
    unfold MarkItWrite.paste_select
    rw [h]
  · intro w h hread
    unfold MarkItWrite.paste_select
    rw [h, hread]
    rfl

/-- Witness for the amended C4 at concrete inputs: format `".xyz"` takes the
no-writer branch, format `".md"` with an unreadable image takes the I/O
branch. -/
theorem paste_select_order_witness :
    MarkItWrite.withBuiltins.paste_select none (some (strCodes ".xyz")) false =
      Except.error (PasteError.noWriter
        (noWriterMsg builtinWriters (strCodes ".xyz"))) ∧
    MarkItWrite.withBuiltins.paste_select none (some (strCodes ".md")) false =
      Except.error PasteError.imageIO := by
  constructor
  · exact (paste_select_order MarkItWrite.withBuiltins none
      (some (strCodes ".xyz")) false).1 _ (by rfl)
  · exact (paste_select_order MarkItWrite.withBuiltins none
      (some (strCodes ".md")) false).2 MarkdownWriter (by rfl) rfl

/-- C5: out-of-range positional hints degrade gracefully — a `"paragraph"`
index outside the valid range appends at the document end, and a `"slide"`
number outside `1..slideCount`, or a missing slide hint, places the image on
a new blank slide. -/
theorem positional_fallback_spec :
    (∀ (paragraphs : List PyStr) (pos : DocxPosition) (n : Int),
      pos.paragraph = some n → ¬ (0 ≤ n ∧ n < (paragraphs.length : Int)) →
      docxInsertPoint (some pos) paragraphs = DocxInsertPoint.atEnd) ∧
    (∀ (slideCount : Nat) (pos : PptxPosition) (n : Int),
      pos.slide = some n → ¬ (1 ≤ n ∧ n ≤ (slideCount : Int)) →
      pptxSlideChoice (some pos) slideCount = PptxSlideChoice.newSlide) ∧
    (∀ (slideCount : Nat) (pos : PptxPosition), pos.slide = none →
      pptxSlideChoice (some pos) slideCount = PptxSlideChoice.newSlide) ∧
    (∀ slideCount : Nat, pptxSlideChoice none slideCount = PptxSlideChoice.newSlide) := by
  refine ⟨?_, ?_, ?_, ?_⟩
  · intro paragraphs pos n hpn hrange
    simp only [docxInsertPoint, hpn]
    rw [if_neg hrange]
  · intro slideCount pos n hpn hrange
    simp only [pptxSlideChoice, hpn]
    rw [if_neg hrange]
  · intro slideCount pos hpn
    simp only [pptxSlideChoice, hpn]
  · intro slideCount
    rfl

/-- Witness for C5: paragraph index 5 against an empty document, slide 7
against a two-slide deck, and a missing slide hint. -/
theorem positional_fallback_spec_witness :
    docxInsertPoint (some ⟨some 5, none⟩) [] = DocxInsertPoint.atEnd ∧
    pptxSlideChoice (some ⟨some 7, none, none⟩) 2 = PptxSlideChoice.newSlide ∧
    pptxSlideChoice (some ⟨none, none, none⟩) 2 = PptxSlideChoice.newSlide ∧
    pptxSlideChoice none 2 = PptxSlideChoice.newSlide := by
  refine ⟨?_, ?_, ?_, ?_⟩
  · exact positional_fallback_spec.1 [] ⟨some 5, none⟩ 5 rfl (by decide)
  · exact positional_fallback_spec.2.1 2 ⟨some 7, none, none⟩ 7 rfl (by decide)
  · exact positional_fallback_spec.2.2.1 2 ⟨none, none, none⟩ rfl
  · exact positional_fallback_spec.2.2.2 2

/-- C9: whatever target format is requested, the `WriteResult` returned by
`MarkdownWriter.insert_image` always carries target format `".md"`. -/
theorem markdown_result_format (guessExt : PyStr → Option PyStr)
    (image_data : List Nat) (document_stream : Option PyStr)
    (target_format : PyStr) (position : Option MdPosition) (kw : MdKwargs) :
    (MarkdownWriter.insert_image guessExt image_data document_stream
      target_format position kw).target_format = strCodes ".md" := rfl

theorem strLeB_total : ∀ a b : PyStr, strLeB a b = true ∨ strLeB b a = true
  | [], _ => Or.inl rfl
  | _ :: _, [] => Or.inr rfl
  | a :: as, b :: bs => by
    by_cases hab : a < b
    · left; simp [strLeB, hab]
    · by_cases hba : b < a
      · right; simp [strLeB, hba, hab]
      · have : ¬ a < b := hab
        rcases strLeB_total as bs with h | h
        · left; simp [strLeB, hab, hba, h]
        · right; simp [strLeB, hab, hba, h]

theorem strLeB_trans : ∀ a b c : PyStr,
    strLeB a b = true → strLeB b c = true → strLeB a c = true
  | [], _, _, _, _ => rfl
  | _ :: _, [], _, hab, _ => by simp [strLeB] at hab
  | _ :: _, _ :: _, [], _, hbc => by simp [strLeB] at hbc
  | a :: as, b :: bs, c :: cs, hab, hbc => by
    simp only [strLeB] at hab hbc ⊢
    by_cases h1 : a < b
    · by_cases h2 : b < c
      · rw [if_pos (lt_trans h1 h2)]
      · by_cases h3 : c < b
        · rw [if_neg h2, if_pos h3] at hbc
          exact Bool.noConfusion hbc
        · have hbc' : b = c := le_antisymm (le_of_not_lt h3) (le_of_not_lt h2)
          rw [if_pos (hbc' ▸ h1)]
    · by_cases h4 : b < a
      · rw [if_neg h1, if_pos h4] at hab
        exact Bool.noConfusion hab
      · have hab' : a = b := le_antisymm (le_of_not_lt h4) (le_of_not_lt h1)
        subst hab'
        by_cases h2 : a < c
        · rw [if_pos h2]
        · by_cases h3 : c < a
          · rw [if_neg h2, if_pos h3] at hbc
            exact Bool.noConfusion hbc
          · rw [if_neg h1, if_neg h4] at hab
            rw [if_neg h2, if_neg h3] at hbc ⊢
            exact strLeB_trans as bs cs hab hbc

theorem pairwise_orderedInsert (x : PyStr) :
    ∀ l : List PyStr, l.Pairwise strLe →
      (l.orderedInsert strLe x).Pairwise strLe
  | [], _ => List.pairwise_singleton strLe x
  | y :: ys, hp => by
    rcases List.pairwise_cons.mp hp with ⟨hyall, hys⟩
    by_cases hxy : strLe x y
    · rw [List.orderedInsert_of_le strLe ys hxy]
      refine List.pairwise_cons.mpr ⟨?_, hp⟩
      intro z hz
      rcases List.mem_cons.mp hz with rfl | hz2
      · exact hxy
      · exact strLeB_trans x y z hxy (hyall z hz2)
    · have heq : (y :: ys).orderedInsert strLe x = y :: ys.orderedInsert strLe x := by
        show List.orderedInsert strLe x (y :: ys) = _
        simp only [List.orderedInsert, if_neg hxy]
      rw [heq]
      refine List.pairwise_cons.mpr ⟨?_, pairwise_orderedInsert x ys hys⟩
      intro z hz
      rcases (List.mem_orderedInsert strLe).mp hz with rfl | hz2
      · rcases strLeB_total y z with h | h
        · exact h
        · exact absurd h hxy
      · exact hyall z hz2

theorem pairwise_insertionSort :
    ∀ l : List PyStr, (List.insertionSort strLe l).Pairwise strLe
  | [] => List.Pairwise.nil
  | x :: xs => pairwise_orderedInsert x _ (pairwise_insertionSort xs)

/-- C8: `supported_formats()` returns exactly the union of every registered
writer's accepted extensions, with duplicates removed, sorted ascending in
the string order. -/
theorem supported_formats_spec (m : MarkItWrite) :
    (∀ x, x ∈ m.supported_formats ↔
      ∃ r ∈ m.writers, x ∈ r.writer.ACCEPTED_EXTENSIONS) ∧
    m.supported_formats.Pairwise strLe ∧
    m.supported_formats.Nodup := by
  refine ⟨?_, pairwise_insertionSort _, ?_⟩
  · intro x
    unfold MarkItWrite.supported_formats
    rw [(List.perm_insertionSort strLe _).mem_iff, List.mem_dedup]
    exact mem_allExtensions x m.writers
  · exact (List.perm_insertionSort strLe _).nodup_iff.mpr
      (List.nodup_dedup _)

/-- Witness for C8 at a concrete input: membership of `".md"` in the
built-in dispatcher's supported formats. -/
theorem supported_formats_spec_witness :
    strCodes ".md" ∈ MarkItWrite.withBuiltins.supported_formats ↔
      ∃ r ∈ MarkItWrite.withBuiltins.writers,
        strCodes ".md" ∈ r.writer.ACCEPTED_EXTENSIONS :=
  (supported_formats_spec MarkItWrite.withBuiltins).1 (strCodes ".md")

theorem b64index_b64char : ∀ i, i < 64 → b64index (b64char i) = some i := by decide

theorem b64char_ne_eqCode : ∀ i, i < 64 → (b64char i == eqCode) = false := by decide

theorem b64decode_encode : ∀ bs : List Nat, (∀ x ∈ bs, x < 256) →
    b64decode (b64encode bs) = some bs
  | [], _ => by simp [b64encode, b64decode]
  | [a], h => by
    have ha : a < 256 := h a (by simp)
    have h1 : a / 4 < 64 := by omega
    have h2 : a % 4 * 16 < 64 := by omega
    show b64decode [b64char (a / 4), b64char (a % 4 * 16), eqCode, eqCode] = some [a]
    simp only [b64decode, b64index_b64char _ h1, b64index_b64char _ h2,
      List.isEmpty_nil, Bool.and_true, beq_self_eq_true, Bool.and_self, if_true]
    have harith : a / 4 * 4 + a % 4 * 16 / 16 = a := by omega
    rw [harith]
  | [a, b], h => by
    have ha : a < 256 := h a (by simp)
    have hb : b < 256 := h b (by simp)
    have h1 : a / 4 < 64 := by omega
    have h2 : a % 4 * 16 + b / 16 < 64 := by omega
    have h3 : b % 16 * 4 < 64 := by omega
    show b64decode [b64char (a / 4), b64char (a % 4 * 16 + b / 16),
      b64char (b % 16 * 4), eqCode] = some [a, b]
    simp only [b64decode, b64index_b64char _ h1, b64index_b64char _ h2,
      b64index_b64char _ h3, b64char_ne_eqCode _ h3,
      List.isEmpty_nil, Bool.and_true, beq_self_eq_true, Bool.false_and,
      Bool.and_self, if_true, Bool.false_eq_true, if_false]
    have e1 : a / 4 * 4 + (a % 4 * 16 + b / 16) / 16 = a := by omega
    have e2 : (a % 4 * 16 + b / 16) % 16 * 16 + b % 16 * 4 / 4 = b := by omega
    rw [e1, e2]
  | a :: b :: c :: rest, h => by
    have ha : a < 256 := h a (by simp)
    have hb : b < 256 := h b (by simp)
    have hc : c < 256 := h c (by simp)
    have htl : ∀ x ∈ rest, x < 256 := by
      intro x hx
      exact h x (List.mem_cons_of_mem a (List.mem_cons_of_mem b
        (List.mem_cons_of_mem c hx)))
    have ih := b64decode_encode rest htl
    have h1 : a / 4 < 64 := by omega
    have h2 : a % 4 * 16 + b / 16 < 64 := by omega
    have h3 : b % 16 * 4 + c / 64 < 64 := by omega
    have h4 : c % 64 < 64 := by omega
    show b64decode (b64char (a / 4) :: b64char (a % 4 * 16 + b / 16) ::
      b64char (b % 16 * 4 + c / 64) :: b64char (c % 64) ::
      b64encode rest) = some (a :: b :: c :: rest)
    simp only [b64decode, b64index_b64char _ h1, b64index_b64char _ h2,
      b64index_b64char _ h3, b64index_b64char _ h4,
      b64char_ne_eqCode _ h3, b64char_ne_eqCode _ h4, Bool.false_and,
      Bool.false_eq_true, if_false, ih]
    have e1 : a / 4 * 4 + (a % 4 * 16 + b / 16) / 16 = a := by omega
    have e2 : (a % 4 * 16 + b / 16) % 16 * 16 + (b % 16 * 4 + c / 64) / 4 = b := by
      omega
    have e3 : (b % 16 * 4 + c / 64) % 4 * 64 + c % 64 = c := by omega
    rw [e1, e2, e3]
    rfl

theorem containsSeq_refl (n : PyStr) : containsSeq n n = true := by
  have := containsSeq_self_append n []
  simpa using this

theorem mem_insertAt (x : PyStr) (i : Nat) (ls : List PyStr) :
    x ∈ insertAt i x ls := by
  unfold insertAt
  exact List.mem_append.mpr (Or.inr (List.mem_cons_self x _))

theorem tag_in_content (tag : PyStr) (document : Option PyStr)
    (position : Option MdPosition) :
    containsSeq tag (buildMdContent tag document position) = true := by
  have happend : ∀ existing : PyStr,
      containsSeq tag (rstrip existing ++ strCodes "\n\n" ++ tag ++ strCodes "\n") =
        true := by
    intro existing
    exact containsSeq_append_right tag _ _
      (containsSeq_append_left tag tag (containsSeq_refl tag) _)
  cases document with
  | none => exact containsSeq_append_right tag tag _ (containsSeq_refl tag)
  | some existing =>
    cases position with
    | none => exact happend existing
    | some pos =>
      cases hah : pos.after_heading with
      | none =>
        simp only [buildMdContent, hah]
        exact happend existing
      | some heading =>
        simp only [buildMdContent, hah]
        cases hfi : findFirstIdx (fun line => isHeadingMatch heading line)
            (splitNl existing) with
        | none => exact happend existing
        | some i =>
          have hmem : tag ∈ insertAt (i + 2) tag
              (insertAt (i + 1) [] (splitNl existing)) := mem_insertAt tag _ _
          obtain ⟨u, v, huv⟩ := joinSep_split [nlCode] _ tag hmem
          show containsSeq tag (joinSep [nlCode] (insertAt (i + 2) tag
            (insertAt (i + 1) [] (splitNl existing)))) = true
          rw [huv]
          exact containsSeq_of_split u tag v

/-- C6: in embedded mode, `MarkdownWriter.insert_image` produces an image
reference of the form `![alt](data:mime;base64,E)` inside its output, where
base64-decoding the payload `E` yields exactly the original image bytes. -/
theorem markdown_embed_roundtrip (guessExt : PyStr → Option PyStr)
    (image_data : List Nat) (document_stream : Option PyStr)
    (target_format : PyStr) (position : Option MdPosition) (kw : MdKwargs)
    (hbytes : ∀ x ∈ image_data, x < 256) (hembed : kw.embed = true) :
    ∃ E, b64decode E = some image_data ∧
      containsSeq
        (strCodes "![" ++ kw.alt_text ++ strCodes "](data:" ++ kw.mime_type ++
          strCodes ";base64," ++ E ++ strCodes ")")
        (MarkdownWriter.insert_image guessExt image_data document_stream
          target_format position kw).output = true := by
  refine ⟨b64encode image_data, b64decode_encode image_data hbytes, ?_⟩
  have htag : mdImgTag guessExt image_data kw =
      strCodes "![" ++ kw.alt_text ++ strCodes "](data:" ++ kw.mime_type ++
        strCodes ";base64," ++ b64encode image_data ++ strCodes ")" := by
    unfold mdImgTag
    rw [if_pos hembed]
  show containsSeq _ (buildMdContent (mdImgTag guessExt image_data kw)
    document_stream position) = true
  rw [← htag]
  exact tag_in_content _ document_stream position

/-- Witness for C6 at concrete inputs: the three bytes `[1, 2, 3]` embedded
with the default options and no existing document. -/
theorem markdown_embed_roundtrip_witness :
    ∃ E, b64decode E = some [1, 2, 3] ∧
      containsSeq
        (strCodes "![" ++ ({} : MdKwargs).alt_text ++ strCodes "](data:" ++
          ({} : MdKwargs).mime_type ++ strCodes ";base64," ++ E ++ strCodes ")")
        (MarkdownWriter.insert_image (fun _ => none) [1, 2, 3] none
          (strCodes ".md") none {}).output = true :=
  markdown_embed_roundtrip (fun _ => none) [1, 2, 3] none (strCodes ".md")
    none {} (by decide) rfl

theorem findIdxAux_none (p : PyStr → Bool) :
    ∀ (l : List PyStr) (k : Nat), (∀ x ∈ l, p x = false) → findIdxAux p l k = none
  | [], _, _ => rfl
  | x :: xs, k, h => by
    have hx : p x = false := h x (List.mem_cons_self x xs)
    simp only [findIdxAux, hx, Bool.false_eq_true, if_false]
    exact findIdxAux_none p xs (k + 1) (fun y hy => h y (List.mem_cons_of_mem x hy))

theorem findIdxAux_first (p : PyStr → Bool) :
    ∀ (l : List PyStr) (i k : Nat) (x : PyStr),
      l.get? i = some x → p x = true →
      (∀ j, j < i → ∀ y, l.get? j = some y → p y = false) →
      findIdxAux p l k = some (k + i)
  | [], i, k, x, hget, _, _ => by simp at hget
  | z :: zs, i, k, x, hget, hpx, hfirst => by
    by_cases hz : p z = true
    · cases i with
      | zero => simp only [findIdxAux, hz, if_true, Nat.add_zero]
      | succ i' =>
        have hcontra := hfirst 0 (Nat.succ_pos i') z rfl
        rw [hz] at hcontra
        exact Bool.noConfusion hcontra
    · have hz' : p z = false := by simpa using hz
      cases i with
      | zero =>
        rw [List.get?_cons_zero] at hget
        cases hget
        rw [hpx] at hz'
        exact Bool.noConfusion hz'
      | succ i' =>
        simp only [findIdxAux, hz', Bool.false_eq_true, if_false]
        rw [List.get?_cons_succ] at hget
        have hfirst' : ∀ j, j < i' → ∀ y, zs.get? j = some y → p y = false := by
          intro j hj y hy
          exact hfirst (j + 1) (Nat.succ_lt_succ hj) y
            (by rw [List.get?_cons_succ]; exact hy)
        rw [findIdxAux_first p zs i' (k + 1) x hget hpx hfirst']
        congr 1
        omega

theorem findFirstIdx_none (p : PyStr → Bool) (l : List PyStr)
    (h : ∀ x ∈ l, p x = false) : findFirstIdx p l = none :=
  findIdxAux_none p l 0 h

theorem findFirstIdx_first (p : PyStr → Bool) (l : List PyStr) (i : Nat)
    (x : PyStr) (hget : l.get? i = some x) (hpx : p x = true)
    (hfirst : ∀ j, j < i → ∀ y, l.get? j = some y → p y = false) :
    findFirstIdx p l = some i := by
  have := findIdxAux_first p l i 0 x hget hpx hfirst
  simpa using this

theorem insertAt_insertAt (ls : List PyStr) (i : Nat) (tag : PyStr)
    (hi : i < ls.length) :
    insertAt (i + 2) tag (insertAt (i + 1) [] ls) =
      ls.take (i + 1) ++ [] :: tag :: ls.drop (i + 1) := by
  unfold insertAt
  have hlen : (ls.take (i + 1)).length = i + 1 := by
    rw [List.length_take]
    omega
  rw [List.take_append_eq_append_take, List.drop_append_eq_append_drop, hlen]
  have ht1 : List.take (i + 2) (List.take (i + 1) ls) = List.take (i + 1) ls := by
    rw [List.take_take]
    congr 1
    omega
  have hd1 : List.drop (i + 2) (List.take (i + 1) ls) = [] := by
    apply List.drop_eq_nil_of_le
    rw [List.length_take]
    omega
  have h1 : i + 2 - (i + 1) = 1 := by omega
  rw [ht1, hd1, h1]
  simp

/-- C7: the placement of the image reference by `MarkdownWriter.insert_image`
— with no body the output is the tag plus a newline; with a body but no
matching heading (or no heading hint) the output is the right-stripped body,
a blank line, the tag and a newline; with a body and a first heading line
matching the hint, a blank line and the tag are spliced in immediately after
that line. -/
theorem markdown_position_spec (guessExt : PyStr → Option PyStr)
    (image_data : List Nat) (target_format : PyStr) (kw : MdKwargs) :
    (∀ position : Option MdPosition,
      (MarkdownWriter.insert_image guessExt image_data none target_format
        position kw).output = mdImgTag guessExt image_data kw ++ strCodes "\n") ∧
    (∀ (body : PyStr) (position : Option MdPosition),
      position.bind (fun p => p.after_heading) = none →
      (MarkdownWriter.insert_image guessExt image_data (some body) target_format
        position kw).output =
        rstrip body ++ strCodes "\n\n" ++ mdImgTag guessExt image_data kw ++
          strCodes "\n") ∧
    (∀ (body heading : PyStr) (position : Option MdPosition),
      position.bind (fun p => p.after_heading) = some heading →
      (∀ line ∈ splitNl body, isHeadingMatch heading line = false) →
      (MarkdownWriter.insert_image guessExt image_data (some body) target_format
        position kw).output =
        rstrip body ++ strCodes "\n\n" ++ mdImgTag guessExt image_data kw ++
          strCodes "\n") ∧
    (∀ (body heading : PyStr) (position : Option MdPosition) (i : Nat)
        (line : PyStr),
      position.bind (fun p => p.after_heading) = some heading →
      (splitNl body).get? i = some line →
      isHeadingMatch heading line = true →
      (∀ j, j < i → ∀ l2, (splitNl body).get? j = some l2 →
        isHeadingMatch heading l2 = false) →
      (MarkdownWriter.insert_image guessExt image_data (some body) target_format
        position kw).output =
        joinSep [nlCode]
          ((splitNl body).take (i + 1) ++
            [] :: mdImgTag guessExt image_data kw :: (splitNl body).drop (i + 1))) := by
  refine ⟨?_, ?_, ?_, ?_⟩
  · intro position
    rfl
  · intro body position hhint
    cases position with
    | none => rfl
    | some pos =>
      have hah : pos.after_heading = none := by simpa using hhint
      show buildMdContent (mdImgTag guessExt image_data kw) (some body)
        (some pos) = _
      simp only [buildMdContent, hah]
  · intro body heading position hhint hnone
    cases position with
    | none => simp at hhint
    | some pos =>
      have hah : pos.after_heading = some heading := by simpa using hhint
      have hfi : findFirstIdx (fun line => isHeadingMatch heading line)
          (splitNl body) = none := findFirstIdx_none _ _ hnone
      show buildMdContent (mdImgTag guessExt image_data kw) (some body)
        (some pos) = _
      simp only [buildMdContent, hah, hfi]
  · intro body heading position i line hhint hget hmatch hfirst
    cases position with
    | none => simp at hhint
    | some pos =>
      have hah : pos.after_heading = some heading := by simpa using hhint
      have hfi : findFirstIdx (fun line => isHeadingMatch heading line)
          (splitNl body) = some i :=
        findFirstIdx_first _ _ i line hget hmatch hfirst
      have hi : i < (splitNl body).length := by
        by_contra hle
        rw [List.get?_eq_none.mpr (Nat.le_of_not_lt hle)] at hget
        exact Option.noConfusion hget
      show buildMdContent (mdImgTag guessExt image_data kw) (some body)
        (some pos) = _
      simp only [buildMdContent, hah, hfi]
      rw [insertAt_insertAt (splitNl body) i _ hi]

/-- Witness for C7: body `"# Charts\nText"` with heading hint `"Charts"`,
the same body with no hint, and no body at all, for one concrete image. -/
theorem markdown_position_spec_witness :
    (MarkdownWriter.insert_image (fun _ => none) [1] none (strCodes ".md")
      none {}).output = mdImgTag (fun _ => none) [1] {} ++ strCodes "\n" ∧
    (MarkdownWriter.insert_image (fun _ => none) [1]
      (some (strCodes "# Charts\nText")) (strCodes ".md") none {}).output =
      rstrip (strCodes "# Charts\nText") ++ strCodes "\n\n" ++
        mdImgTag (fun _ => none) [1] {} ++ strCodes "\n" ∧
    (MarkdownWriter.insert_image (fun _ => none) [1]
      (some (strCodes "# Charts\nText")) (strCodes ".md")
      (some ⟨some (strCodes "Nope")⟩) {}).output =
      rstrip (strCodes "# Charts\nText") ++ strCodes "\n\n" ++
        mdImgTag (fun _ => none) [1] {} ++ strCodes "\n" ∧
    (MarkdownWriter.insert_image (fun _ => none) [1]
      (some (strCodes "# Charts\nText")) (strCodes ".md")
      (some ⟨some (strCodes "Charts")⟩) {}).output =
      joinSep [nlCode]
        ((splitNl (strCodes "# Charts\nText")).take 1 ++
          [] :: mdImgTag (fun _ => none) [1] {} ::
            (splitNl (strCodes "# Charts\nText")).drop 1) := by
  refine ⟨?_, ?_, ?_, ?_⟩
  · exact (markdown_position_spec (fun _ => none) [1] (strCodes ".md") {}).1 none
  · exact (markdown_position_spec (fun _ => none) [1] (strCodes ".md") {}).2.1
      (strCodes "# Charts\nText") none rfl
  · exact (markdown_position_spec (fun _ => none) [1] (strCodes ".md") {}).2.2.1
      (strCodes "# Charts\nText") (strCodes "Nope")
      (some ⟨some (strCodes "Nope")⟩) rfl (by decide)
  · exact (markdown_position_spec (fun _ => none) [1] (strCodes ".md") {}).2.2.2
      (strCodes "# Charts\nText") (strCodes "Charts")
      (some ⟨some (strCodes "Charts")⟩) 0 (strCodes "# Charts") rfl
      (by decide) (by decide)
      (fun j hj _ _ => absurd hj (Nat.not_lt_zero j))

end Markitwrite
